import Mathlib

/-!
Verification of the staking-income-calculator repository.

The development shallowly embeds the parts of the code that the claims
are about:

* `src/protocol.py` — the `Protocol` enum and `Protocol.from_name`.
* `src/reward.py` — `Reward.find_by_timestamp` (sort + binary search for
  the price entry with the nearest timestamp).
* `src/batch_requestor.py` — the `BatchRequestor` batch scheduler: the
  drain loop `process_batch` is modelled as a pure function over the
  queue (with an optional injected bookkeeping error), and the
  concurrency guard (`processing` flag + `asyncio.Lock` double-check) is
  modelled as an explicit interleaving transition system.
-/

namespace StakingIncome

/-! ## Protocol (src/protocol.py) -/

/-- The `Protocol` enum members, in definition order. -/
inductive Protocol where
  | SOLANA
  | ETHEREUM
  | BITCOIN
  | POLKADOT
  | CARDANO
  | COSMOS
deriving DecidableEq, Repr

/-- `Protocol.name` property: returns the `_name` set in `__init__`
(the first component of each member's value tuple). -/
def Protocol.name : Protocol → String
  | .SOLANA => "solana"
  | .ETHEREUM => "ethereum"
  | .BITCOIN => "bitcoin"
  | .POLKADOT => "polkadot"
  | .CARDANO => "cardano"
  | .COSMOS => "cosmos"

/-- `Protocol.ticker` property. -/
def Protocol.ticker : Protocol → String
  | .SOLANA => "SOL"
  | .ETHEREUM => "ETH"
  | .BITCOIN => "BTC"
  | .POLKADOT => "DOT"
  | .CARDANO => "ADA"
  | .COSMOS => "ATOM"

/-- Iteration order of `for protocol in cls` (enum definition order). -/
def Protocol.members : List Protocol :=
  [.SOLANA, .ETHEREUM, .BITCOIN, .POLKADOT, .CARDANO, .COSMOS]

/-- Model of Python's `str.lower()` (ASCII case folding, applied
characterwise), used by `Protocol.from_name`. -/
def pyLower (s : String) : String :=
  ⟨s.data.map Char.toLower⟩

/-- `Protocol.from_name`: lowercases the argument, scans the members in
order for one whose `name` equals it, and otherwise raises `ValueError`
(modelled as `Except.error`). -/
def Protocol.from_name (s : String) : Except String Protocol :=
  let n := pyLower s
  match Protocol.members.find? (fun p => p.name == n) with
  | some p => Except.ok p
  | none => Except.error ("Invalid protocol name: " ++ n)

/-- `Char.toLower` is idempotent: lowering an ASCII uppercase letter
lands outside the uppercase range, and every other character is fixed. -/
lemma charToLower_idem (c : Char) : (c.toLower).toLower = c.toLower := by
  unfold Char.toLower
  by_cases h : c.toNat ≥ 65 ∧ c.toNat ≤ 90
  · rw [if_pos h]
    have hv : (Char.ofNat (c.toNat + 32)).toNat = c.toNat + 32 := by
      unfold Char.ofNat
      rw [dif_pos]
      · rfl
      · exact Or.inl (by omega)
    rw [if_neg]
    rw [hv]
    omega
  · rw [if_neg h, if_neg h]

/-- `pyLower` is idempotent. -/
lemma pyLower_idem (s : String) : pyLower (pyLower s) = pyLower s := by
  unfold pyLower
  apply congrArg String.mk
  show (s.data.map Char.toLower).map Char.toLower = s.data.map Char.toLower
  rw [List.map_map]
  exact List.map_congr_left (fun a _ => charToLower_idem a)

/-- C10: `Protocol.from_name` round-trips on every member's name, is
case-insensitive in its argument, and fails with `ValueError` exactly on
strings matching no member's name. -/
theorem protocol_from_name_spec :
    (∀ p : Protocol, Protocol.from_name p.name = Except.ok p) ∧
    (∀ s : String, Protocol.from_name s = Protocol.from_name (pyLower s)) ∧
    (∀ s : String, (∀ p : Protocol, p.name ≠ pyLower s) →
      ∃ msg, Protocol.from_name s = Except.error msg) := by
  refine ⟨?_, ?_, ?_⟩
  · intro p
    cases p <;> rfl
  · intro s
    unfold Protocol.from_name
    rw [pyLower_idem]
  · intro s h
    have hf : Protocol.members.find? (fun p => p.name == pyLower s) = none :=
      List.find?_eq_none.mpr (fun p _ => by simpa using h p)
    refine ⟨"Invalid protocol name: " ++ pyLower s, ?_⟩
    unfold Protocol.from_name
    simp only [hf]

/-- Witness for C10 at concrete inputs: the unmatched-name hypothesis is
discharged at the string `"doge"`. -/
theorem protocol_from_name_spec_witness :
    Protocol.from_name "SOLANA" = Except.ok Protocol.SOLANA ∧
    ∃ msg, Protocol.from_name "doge" = Except.error msg :=
  ⟨protocol_from_name_spec.1 Protocol.SOLANA ▸ (by rfl),
   protocol_from_name_spec.2.2 "doge" (by intro p; cases p <;> decide)⟩

/-! ## Reward.find_by_timestamp (src/reward.py)

Price entries are pairs whose first component is the timestamp (an
integer, matching the Python code's integer epochs); the second
component (the price payload) is opaque. -/

/-- Ordering of price entries by timestamp, the sort key
`lambda p: p[0]` used by `find_by_timestamp`. -/
def tsLE (a b : Int × α) : Prop := a.1 ≤ b.1

instance : DecidableRel (tsLE (α := α)) := fun a b => Int.decLe a.1 b.1

instance : IsTotal (Int × α) tsLE := ⟨fun a b => Int.le_total a.1 b.1⟩

instance : IsTrans (Int × α) tsLE := ⟨fun _ _ _ h1 h2 => le_trans h1 h2⟩

/-- Model of Python's `bisect.bisect_left` by its contract: on a sorted
key list it returns the first index whose key is `≥ target` (the
insertion point to the left of equal entries), i.e. the number of keys
strictly below the target. -/
def bisect_left (keys : List Int) (target : Int) : Nat :=
  keys.findIdx (fun k => target ≤ k)

/-- `Reward.find_by_timestamp`: returns `None` on an empty list;
otherwise sorts the prices by timestamp, locates the insertion point of
the target with `bisect_left`, and returns the boundary entry (first or
last) or whichever neighbour of the insertion point has the smaller
absolute timestamp distance, preferring the left neighbour on ties. -/
def find_by_timestamp (prices : List (Int × α)) (target_timestamp : Int) :
    Option (Int × α) :=
  match prices with
  | [] => none
  | _ :: _ =>
    let sorted_prices := List.insertionSort tsLE prices
    let idx := bisect_left (sorted_prices.map Prod.fst) target_timestamp
    if idx = 0 then sorted_prices.head?
    else if idx = sorted_prices.length then sorted_prices.getLast?
    else
      match sorted_prices[idx - 1]?, sorted_prices[idx]? with
      | some left, some right =>
          if |left.1 - target_timestamp| ≤ |right.1 - target_timestamp| then
            some left
          else
            some right
      | _, _ => none

example : find_by_timestamp [((10 : Int), (1 : Int)), (3, 2)] 5 = some (3, 2) := by decide

example : find_by_timestamp [((10 : Int), (1 : Int)), (3, 2)] 100 = some (10, 1) := by decide

example : find_by_timestamp ([] : List (Int × Int)) 100 = none := by decide

example : find_by_timestamp [((4 : Int), (1 : Int)), (6, 2)] 5 = some (4, 1) := by decide

/-- On a nonempty price list, `find_by_timestamp` returns an entry of
the list whose timestamp is at minimal absolute distance from the
target, ties broken toward the smaller timestamp. -/
lemma find_by_timestamp_min (prices : List (Int × α)) (t : Int) (hne : prices ≠ []) :
    ∃ r, find_by_timestamp prices t = some r ∧ r ∈ prices ∧
      ∀ q ∈ prices, |r.1 - t| ≤ |q.1 - t| ∧ (|r.1 - t| = |q.1 - t| → r.1 ≤ q.1) := by
  rcases prices with _ | ⟨a, l⟩
  · exact absurd rfl hne
  simp only [find_by_timestamp]
  set s := List.insertionSort tsLE (a :: l) with hs_def
  have hperm : s.Perm (a :: l) := List.perm_insertionSort tsLE (a :: l)
  have hsorted : List.Sorted tsLE s := List.sorted_insertionSort tsLE (a :: l)
  have hs_len_pos : 0 < s.length := by
    rw [hs_def, List.length_insertionSort]; exact Nat.succ_pos _
  set idx := bisect_left (s.map Prod.fst) t with hidx_def
  have hklen : (s.map Prod.fst).length = s.length := List.length_map _ _
  have hidx_le : idx ≤ s.length := by
    rw [hidx_def, bisect_left, ← hklen]; exact List.findIdx_le_length _
  have hmono : ∀ i j : Nat, ∀ _ : i < s.length, ∀ _ : j < s.length, i ≤ j →
      (s[i]).1 ≤ (s[j]).1 := by
    intro i j hi hj hij
    rcases Nat.lt_or_ge i j with h | h
    · exact List.pairwise_iff_getElem.mp hsorted i j hi hj h
    · have hij' : i = j := le_antisymm hij h
      subst hij'; exact le_refl _
  have hfind_eq : (s.map Prod.fst).findIdx (fun k => decide (t ≤ k)) = idx :=
    hidx_def.symm
  have hbelow : ∀ i : Nat, ∀ _ : i < s.length, i < idx → (s[i]).1 < t := by
    intro i hi hlt
    have hki : i < (s.map Prod.fst).length := by rw [hklen]; exact hi
    have hlt' : i < (s.map Prod.fst).findIdx (fun k => decide (t ≤ k)) := by
      rw [hfind_eq]; exact hlt
    have hp := List.not_of_lt_findIdx hlt'
    simp only [List.getElem_map, decide_eq_false_iff_not, not_le] at hp
    exact hp
  have habove : ∀ i : Nat, ∀ _ : i < s.length, idx ≤ i → t ≤ (s[i]).1 := by
    intro i hi hge
    have hidxlt : idx < s.length := lt_of_le_of_lt hge hi
    have hw : (s.map Prod.fst).findIdx (fun k => decide (t ≤ k)) <
        (s.map Prod.fst).length := by
      rw [hfind_eq, hklen]; exact hidxlt
    have hp := List.findIdx_getElem (w := hw)
    simp only [hfind_eq, List.getElem_map, decide_eq_true_eq] at hp
    exact le_trans hp (hmono idx i hidxlt hi hge)
  have hmemidx : ∀ q, q ∈ (a :: l) → ∃ j : Nat, ∃ hj : j < s.length, s[j] = q := by
    intro q hq
    exact List.mem_iff_getElem.mp (hperm.mem_iff.mpr hq)
  have hmems : ∀ j : Nat, ∀ _ : j < s.length, s[j] ∈ (a :: l) := by
    intro j hj
    exact hperm.mem_iff.mp (List.getElem_mem hj)
  by_cases h0 : idx = 0
  · -- all timestamps are ≥ target; the head of the sorted list is closest
    refine ⟨s[0], ?_, hmems 0 hs_len_pos, ?_⟩
    · rw [if_pos h0, List.head?_eq_getElem?, List.getElem?_eq_getElem hs_len_pos]
    · intro q hq
      obtain ⟨j, hj, hqe⟩ := hmemidx q hq
      subst hqe
      have h1 : t ≤ (s[0]).1 := habove 0 hs_len_pos (by omega)
      have h2 : t ≤ (s[j]).1 := habove j hj (by omega)
      have h3 : (s[0]).1 ≤ (s[j]).1 := hmono 0 j hs_len_pos hj (Nat.zero_le _)
      constructor
      · rw [abs_of_nonneg (by omega : (0:Int) ≤ (s[0]).1 - t),
          abs_of_nonneg (by omega : (0:Int) ≤ (s[j]).1 - t)]
        omega
      · intro _; exact h3
  · by_cases hL : idx = s.length
    · -- all timestamps are < target; the last of the sorted list is closest
      have hlast : s.length - 1 < s.length := by omega
      refine ⟨s[s.length - 1], ?_, hmems _ hlast, ?_⟩
      · rw [if_neg h0, if_pos hL, List.getLast?_eq_getElem?,
          List.getElem?_eq_getElem hlast]
      · intro q hq
        obtain ⟨j, hj, hqe⟩ := hmemidx q hq
        subst hqe
        have h1 : (s[s.length - 1]).1 < t := hbelow _ hlast (by omega)
        have h2 : (s[j]).1 < t := hbelow j hj (by omega)
        have h3 : (s[j]).1 ≤ (s[s.length - 1]).1 := hmono j _ hj hlast (by omega)
        constructor
        · rw [abs_of_nonpos (by omega : (s[s.length - 1]).1 - t ≤ (0:Int)),
            abs_of_nonpos (by omega : (s[j]).1 - t ≤ (0:Int))]
          omega
        · intro heq
          rw [abs_of_nonpos (by omega : (s[s.length - 1]).1 - t ≤ (0:Int)),
            abs_of_nonpos (by omega : (s[j]).1 - t ≤ (0:Int))] at heq
          omega
    · -- the target falls between two neighbours of the sorted list
      have hidxlt : idx < s.length := lt_of_le_of_ne hidx_le hL
      have hprev : idx - 1 < s.length := by omega
      have hsl : s[idx - 1]? = some s[idx - 1] := List.getElem?_eq_getElem hprev
      have hsr : s[idx]? = some s[idx] := List.getElem?_eq_getElem hidxlt
      have hred : (match s[idx - 1]?, s[idx]? with
          | some left, some right =>
              if |left.1 - t| ≤ |right.1 - t| then some left else some right
          | _, _ => none) =
          if |(s[idx - 1]).1 - t| ≤ |(s[idx]).1 - t| then some s[idx - 1]
          else some s[idx] := by
        rw [hsl, hsr]
      rw [if_neg h0, if_neg hL, hred]
      have hlt : (s[idx - 1]).1 < t := hbelow _ hprev (by omega)
      have hrt : t ≤ (s[idx]).1 := habove _ hidxlt (by omega)
      by_cases hcmp : |(s[idx - 1]).1 - t| ≤ |(s[idx]).1 - t|
      · -- the left neighbour wins (including ties)
        refine ⟨s[idx - 1], by rw [if_pos hcmp], hmems _ hprev, ?_⟩
        intro q hq
        obtain ⟨j, hj, hqe⟩ := hmemidx q hq
        subst hqe
        rcases Nat.lt_or_ge j idx with hji | hji
        · have hq1 : (s[j]).1 < t := hbelow j hj hji
          have hq2 : (s[j]).1 ≤ (s[idx - 1]).1 := hmono j _ hj hprev (by omega)
          constructor
          · rw [abs_of_nonpos (by omega : (s[idx - 1]).1 - t ≤ (0:Int)),
              abs_of_nonpos (by omega : (s[j]).1 - t ≤ (0:Int))]
            omega
          · intro heq
            rw [abs_of_nonpos (by omega : (s[idx - 1]).1 - t ≤ (0:Int)),
              abs_of_nonpos (by omega : (s[j]).1 - t ≤ (0:Int))] at heq
            omega
        · have hq1 : t ≤ (s[j]).1 := habove j hj hji
          have hq2 : (s[idx]).1 ≤ (s[j]).1 := hmono idx j hidxlt hj hji
          have hstep : |(s[idx]).1 - t| ≤ |(s[j]).1 - t| := by
            rw [abs_of_nonneg (by omega : (0:Int) ≤ (s[idx]).1 - t),
              abs_of_nonneg (by omega : (0:Int) ≤ (s[j]).1 - t)]
            omega
          exact ⟨le_trans hcmp hstep, fun _ => by omega⟩
      · -- the right neighbour is strictly closer
        push_neg at hcmp
        refine ⟨s[idx], by rw [if_neg (not_le.mpr hcmp)], hmems _ hidxlt, ?_⟩
        intro q hq
        obtain ⟨j, hj, hqe⟩ := hmemidx q hq
        subst hqe
        rcases Nat.lt_or_ge j idx with hji | hji
        · have hq1 : (s[j]).1 < t := hbelow j hj hji
          have hq2 : (s[j]).1 ≤ (s[idx - 1]).1 := hmono j _ hj hprev (by omega)
          have hstep : |(s[idx - 1]).1 - t| ≤ |(s[j]).1 - t| := by
            rw [abs_of_nonpos (by omega : (s[idx - 1]).1 - t ≤ (0:Int)),
              abs_of_nonpos (by omega : (s[j]).1 - t ≤ (0:Int))]
            omega
          have hlt2 : |(s[idx]).1 - t| < |(s[j]).1 - t| := lt_of_lt_of_le hcmp hstep
          exact ⟨le_of_lt hlt2, fun heq => absurd heq (ne_of_lt hlt2)⟩
        · have hq1 : t ≤ (s[j]).1 := habove j hj hji
          have hq2 : (s[idx]).1 ≤ (s[j]).1 := hmono idx j hidxlt hj hji
          constructor
          · rw [abs_of_nonneg (by omega : (0:Int) ≤ (s[idx]).1 - t),
              abs_of_nonneg (by omega : (0:Int) ≤ (s[j]).1 - t)]
            omega
          · intro _; exact hq2

/-- C9: `Reward.find_by_timestamp` returns `None` iff the price list is
empty; otherwise it returns an element of the list whose timestamp
minimizes the absolute distance to the target, preferring the smaller
timestamp of two equidistant candidates, on sorted or unsorted input. -/
theorem find_by_timestamp_spec (prices : List (Int × α)) (t : Int) :
    (find_by_timestamp prices t = none ↔ prices = []) ∧
    (∀ r, find_by_timestamp prices t = some r →
      r ∈ prices ∧ ∀ q ∈ prices,
        |r.1 - t| ≤ |q.1 - t| ∧ (|r.1 - t| = |q.1 - t| → r.1 ≤ q.1)) := by
  constructor
  · constructor
    · intro hnone
      by_contra hne
      obtain ⟨r, hr, -, -⟩ := find_by_timestamp_min prices t hne
      rw [hr] at hnone
      cases hnone
    · intro h; subst h; rfl
  · intro r hr
    have hne : prices ≠ [] := by
      intro h; subst h
      simp [find_by_timestamp] at hr
    obtain ⟨r0, h0, hmem, hmin⟩ := find_by_timestamp_min prices t hne
    rw [h0] at hr
    cases hr
    exact ⟨hmem, hmin⟩

/-- Witness for C9 at the concrete unsorted input
`[(10, 1), (3, 2)]` with target `5`, where the returned entry is `(3, 2)`. -/
theorem find_by_timestamp_spec_witness :
    find_by_timestamp [((10 : Int), (1 : Int)), (3, 2)] 5 = some (3, 2) ∧
    ((3, 2) ∈ [((10 : Int), (1 : Int)), (3, 2)] ∧
      ∀ q ∈ [((10 : Int), (1 : Int)), (3, 2)],
        |(3 : Int) - 5| ≤ |q.1 - 5| ∧ (|(3 : Int) - 5| = |q.1 - 5| → (3 : Int) ≤ q.1)) :=
  ⟨by decide,
   (find_by_timestamp_spec [((10 : Int), (1 : Int)), (3, 2)] 5).2 (3, 2) (by decide)⟩

/-! ## BatchRequestor (src/batch_requestor.py)

The drain loop `process_batch` is modelled as a pure function over the
queue.  A queued request's stored callable and arguments are opaque, so
each request is modelled by the outcome (`Except`) that awaiting
`request.func(*request.args, **request.kwargs)` produces, together with
an identifier `rid` naming its future.  A bookkeeping error of the loop
itself (an exception in the loop mechanism, not an individual
operation's failure) is injected through the `errAt` parameter. -/

/-- A queued request (the `BatchRequest` dataclass): `rid` identifies
the request's future, `op` the outcome its operation produces. -/
structure BatchRequest (ε α : Type) where
  rid : Nat
  op : Except ε α


/-- One observable event of the drain loop: executing a batch, or the
cooldown sleep taken between two batches. -/
inductive DrainEvent (ε α : Type) where
  | batch (reqs : List (BatchRequest ε α))
  | sleep (cooldown : ℚ)


/-- Result of one drain: the trace of events, the future resolutions
`(rid, value-or-error)` in the order they are set, and the requests
still sitting in `request_queue` when the loop exits. -/
structure DrainOut (ε α : Type) where
  events : List (DrainEvent ε α)
  resolutions : List (Nat × Except ε α)
  leftover : List (BatchRequest ε α)


/-- Whether the injected bookkeeping error fires in iteration `k`; if
so, carries the number of requests of that batch already executed. -/
def errFires (errAt : Option (Nat × Nat)) (k : Nat) : Option Nat :=
  match errAt with
  | some (ek, j) => if ek = k then some j else none
  | none => none

/-- The `while self.request_queue:` loop of `process_batch`, with an
explicit fuel bounding the number of iterations (each iteration removes
at least one request, so `q.length` fuel always suffices; see
`drainLoop`).  Each iteration pops the first `min(batch_size,
len(queue))` requests, executes them in order (a request's own failure
is caught and set on its future only), then sleeps for `cooldown` iff
the queue is non-empty.  `errAt = some (k, j)` injects a bookkeeping
error into iteration `k` after `j` requests of that batch have been
executed: the `except` handler then sets the error `e` on every future
of the current batch that is not yet done, and the loop exits with the
rest of the queue untouched. -/
def drainAux (B : Nat) (c : ℚ) (errAt : Option (Nat × Nat)) (e : ε) :
    Nat → Nat → List (BatchRequest ε α) → DrainOut ε α
  | 0, _, q => ⟨[], [], q⟩
  | fuel + 1, k, q =>
    if q.isEmpty then ⟨[], [], []⟩
    else
      let batch := q.take (min B q.length)
      if batch.isEmpty then ⟨[], [], q⟩
      else
        let rest := q.drop batch.length
        match errFires errAt k with
        | some j =>
            ⟨[DrainEvent.batch batch],
             (batch.take j).map (fun r => (r.rid, r.op)) ++
               (batch.drop j).map (fun r => (r.rid, Except.error e)),
             rest⟩
        | none =>
            let out := drainAux B c errAt e fuel (k + 1) rest
            ⟨DrainEvent.batch batch ::
               (if rest.isEmpty then out.events else DrainEvent.sleep c :: out.events),
             batch.map (fun r => (r.rid, r.op)) ++ out.resolutions,
             out.leftover⟩

/-- The drain loop of `process_batch`, starting at iteration `k` on
queue `q`. -/
def drainLoop (B : Nat) (c : ℚ) (errAt : Option (Nat × Nat)) (e : ε) (k : Nat)
    (q : List (BatchRequest ε α)) : DrainOut ε α :=
  drainAux B c errAt e q.length k q

/-- Scheduler state: the fields of a `BatchRequestor` instance (the
lock is modelled only in the interleaving machine below). -/
structure SchedState (ε α : Type) where
  batch_size : Int
  cooldown : ℚ
  request_queue : List (BatchRequest ε α)
  processing : Bool


/-- `BatchRequestor.__init__`: stores both parameters unconditionally —
the constructor performs no validation of `batch_size` or `cooldown`. -/
def BatchRequestor.init (batch_size : Int) (cooldown : ℚ) : SchedState ε α :=
  ⟨batch_size, cooldown, [], false⟩

/-- One `process_batch` call: early return if `processing` is already
set; otherwise set the flag, run the drain loop, and clear the flag in
`finally`.  Python's `range(min(batch_size, len(queue)))` is empty for a
non-positive `batch_size`, which `Int.toNat` models. -/
def processBatch (errAt : Option (Nat × Nat)) (e : ε) (s : SchedState ε α) :
    SchedState ε α × DrainOut ε α :=
  if s.processing then (s, ⟨[], [], s.request_queue⟩)
  else
    let out := drainLoop s.batch_size.toNat s.cooldown errAt e 0 s.request_queue
    ({ s with request_queue := out.leftover, processing := false }, out)

/-- The batches of a drain trace, in execution order. -/
def drainBatches (out : DrainOut ε α) : List (List (BatchRequest ε α)) :=
  out.events.filterMap (fun ev => match ev with
    | DrainEvent.batch b => some b
    | DrainEvent.sleep _ => none)

/-- Fueled front-to-back decomposition of a list into chunks of `B`
(empty for `B = 0`, mirroring the loop's `if not batch: break`). -/
def chunksAux (B : Nat) : Nat → List γ → List (List γ)
  | 0, _ => []
  | fuel + 1, q =>
    if q.isEmpty then []
    else if B = 0 then []
    else q.take B :: chunksAux B fuel (q.drop B)

/-- The front-to-back decomposition of a list into chunks of `B`. -/
def chunksOf (B : Nat) (q : List γ) : List (List γ) :=
  chunksAux B q.length q

lemma take_min_self (B : Nat) (q : List γ) : q.take (min B q.length) = q.take B := by
  rcases le_total B q.length with h | h
  · rw [min_eq_left h]
  · rw [min_eq_right h, List.take_length, List.take_of_length_le h]

lemma drop_min_self (B : Nat) (q : List γ) : q.drop (min B q.length) = q.drop B := by
  rcases le_total B q.length with h | h
  · rw [min_eq_left h]
  · rw [min_eq_right h, List.drop_length, List.drop_eq_nil_of_le h]

lemma chunksAux_eq_of_le (B : Nat) :
    ∀ (f1 : Nat) (q : List γ) (f2 : Nat), q.length ≤ f1 → q.length ≤ f2 →
      chunksAux B f1 q = chunksAux B f2 q := by
  intro f1
  induction f1 with
  | zero =>
      intro q f2 h1 _
      have hq : q = [] := List.eq_nil_of_length_eq_zero (Nat.le_zero.mp h1)
      subst hq
      cases f2 <;> simp [chunksAux]
  | succ f ih =>
      intro q f2 h1 h2
      by_cases hq : q = []
      · subst hq
        cases f2 <;> simp [chunksAux]
      · have hqlen : 0 < q.length := List.length_pos.mpr hq
        cases f2 with
        | zero => omega
        | succ f2' =>
            by_cases hB : B = 0
            · simp [chunksAux, hq, hB]
            · have hde : ¬ q.isEmpty = true := by simp [hq]
              simp only [chunksAux, hde, if_false, hB]
              have hdl : (q.drop B).length ≤ f := by
                rw [List.length_drop]; omega
              have hdl2 : (q.drop B).length ≤ f2' := by
                rw [List.length_drop]; omega
              rw [ih (q.drop B) f2' hdl hdl2]

lemma chunksOf_nil (B : Nat) : chunksOf B ([] : List γ) = [] := rfl

lemma chunksOf_cons (B : Nat) (q : List γ) (hq : q ≠ []) (hB : B ≠ 0) :
    chunksOf B q = q.take B :: chunksOf B (q.drop B) := by
  have hqlen : 0 < q.length := List.length_pos.mpr hq
  obtain ⟨m, hm⟩ : ∃ m, q.length = m + 1 := ⟨q.length - 1, by omega⟩
  have hde : ¬ q.isEmpty = true := by simp [hq]
  show chunksAux B q.length q = _
  rw [hm]
  simp [chunksAux, hq, hB]
  exact chunksAux_eq_of_le B m (q.drop B) (q.drop B).length
    (by rw [List.length_drop]; omega) (le_refl _)

lemma chunksOf_flatten (B : Nat) (hB : 0 < B) :
    ∀ (fuel : Nat) (q : List γ), q.length ≤ fuel → (chunksOf B q).flatten = q := by
  intro fuel
  induction fuel with
  | zero =>
      intro q hq
      have h : q = [] := List.eq_nil_of_length_eq_zero (Nat.le_zero.mp hq)
      subst h; rfl
  | succ f ih =>
      intro q hq
      by_cases hqn : q = []
      · subst hqn; rfl
      · rw [chunksOf_cons B q hqn hB.ne']
        have hqlen : 0 < q.length := List.length_pos.mpr hqn
        have hdl : (q.drop B).length ≤ f := by
          rw [List.length_drop]; omega
        simp only [List.flatten_cons, ih (q.drop B) hdl]
        exact List.take_append_drop B q

lemma chunksOf_lengths (B : Nat) (hB : 0 < B) :
    ∀ (fuel : Nat) (q : List γ), q.length ≤ fuel →
      (chunksOf B q).map List.length =
        List.replicate (q.length / B) B ++
          (if q.length % B = 0 then [] else [q.length % B]) := by
  intro fuel
  induction fuel with
  | zero =>
      intro q hq
      have h : q = [] := List.eq_nil_of_length_eq_zero (Nat.le_zero.mp hq)
      subst h
      simp [chunksOf_nil]
  | succ f ih =>
      intro q hq
      by_cases hqn : q = []
      · subst hqn; simp [chunksOf_nil]
      · rw [chunksOf_cons B q hqn hB.ne']
        have hqlen : 0 < q.length := List.length_pos.mpr hqn
        have hdl : (q.drop B).length ≤ f := by
          rw [List.length_drop]; omega
        simp only [List.map_cons, ih (q.drop B) hdl, List.length_take,
          List.length_drop]
        rcases le_total q.length B with h | h
        · -- the whole queue fits into the final batch
          have hdiv : q.length / B = if q.length = B then 1 else 0 := by
            rcases eq_or_lt_of_le h with he | hlt
            · simp [he, Nat.div_self hB]
            · simp [Nat.div_eq_of_lt hlt, Nat.ne_of_lt hlt]
          have hmod : q.length % B = if q.length = B then 0 else q.length := by
            rcases eq_or_lt_of_le h with he | hlt
            · simp [he, Nat.mod_self]
            · simp [Nat.mod_eq_of_lt hlt, Nat.ne_of_lt hlt]
          by_cases he : q.length = B
          · simp [hdiv, hmod, he, min_eq_right h, Nat.sub_self,
              Nat.zero_div, Nat.zero_mod, Nat.div_self hB, List.replicate]
          · have hlt : q.length < B := lt_of_le_of_ne h he
            simp [hdiv, hmod, he, min_eq_right h, Nat.sub_eq_zero_of_le h,
              Nat.zero_div, Nat.zero_mod, List.replicate, Nat.pos_iff_ne_zero.mp hqlen]
        · -- a full batch of size B is removed first
          have hdiv : q.length / B = (q.length - B) / B + 1 :=
            Nat.div_eq_sub_div hB h
          have hmod : q.length % B = (q.length - B) % B :=
            Nat.mod_eq_sub_mod h
          rw [min_eq_left h, hdiv, hmod, List.replicate_succ]
          simp

/-- Normal form of an error-free drain with positive batch size: the
events are the chunks of the queue interleaved with cooldown sleeps,
every request is resolved with its own outcome in queue order, and the
queue is drained completely. -/
lemma drainAux_none (B : Nat) (c : ℚ) (e : ε) (hB : 0 < B) :
    ∀ (fuel k : Nat) (q : List (BatchRequest ε α)), q.length ≤ fuel →
      drainAux B c none e fuel k q =
        ⟨List.intersperse (DrainEvent.sleep c) ((chunksOf B q).map DrainEvent.batch),
         q.map (fun r => (r.rid, r.op)), []⟩ := by
  intro fuel
  induction fuel with
  | zero =>
      intro k q hq
      have hqnil : q = [] := List.eq_nil_of_length_eq_zero (Nat.le_zero.mp hq)
      subst hqnil
      rfl
  | succ fuel ih =>
      intro k q hq
      by_cases hqnil : q = []
      · subst hqnil; rfl
      · have hqlen : 0 < q.length := List.length_pos.mpr hqnil
        have hde : ¬ q.isEmpty = true := by simp [hqnil]
        have hbatch : q.take (min B q.length) = q.take B := take_min_self B q
        have hbne : ¬ (q.take (min B q.length)).isEmpty = true := by
          rw [hbatch]
          simp only [List.isEmpty_eq_true, List.take_eq_nil_iff]
          push_neg
          exact ⟨hB.ne', hqnil⟩
        have hblen : (q.take (min B q.length)).length = min B q.length := by
          rw [List.length_take]; omega
        have hrest : q.drop (q.take (min B q.length)).length = q.drop B := by
          rw [hblen, drop_min_self]
        have hrlen : (q.drop B).length ≤ fuel := by
          rw [List.length_drop]; omega
        show (if q.isEmpty = true then (⟨[], [], []⟩ : DrainOut ε α)
          else
            let batch := q.take (min B q.length)
            if batch.isEmpty = true then ⟨[], [], q⟩
            else
              let rest := q.drop batch.length
              match errFires none k with
              | some j =>
                  ⟨[DrainEvent.batch batch],
                   (batch.take j).map (fun r => (r.rid, r.op)) ++
                     (batch.drop j).map (fun r => (r.rid, Except.error e)),
                   rest⟩
              | none =>
                  let out := drainAux B c none e fuel (k + 1) rest
                  ⟨DrainEvent.batch batch ::
                     (if rest.isEmpty then out.events
                      else DrainEvent.sleep c :: out.events),
                   batch.map (fun r => (r.rid, r.op)) ++ out.resolutions,
                   out.leftover⟩) = _
        rw [if_neg hde]
        simp only [errFires]
        rw [if_neg hbne]
        rw [hblen, drop_min_self, hbatch]
        simp only [ih (k + 1) (q.drop B) hrlen]
        rw [chunksOf_cons B q hqnil hB.ne']
        have hres : (List.take B q).map (fun r => (r.rid, r.op)) ++
            (List.drop B q).map (fun r => (r.rid, r.op)) =
            q.map (fun r => (r.rid, r.op)) := by
          rw [← List.map_append, List.take_append_drop]
        by_cases hrnil : q.drop B = []
        · -- final batch: no sleep afterwards, no further chunks
          have hlenle : q.length ≤ B := by
            have hc := congrArg List.length hrnil
            simp only [List.length_drop, List.length_nil] at hc
            omega
          have htq : List.take B q = q := List.take_of_length_le hlenle
          rw [hrnil, htq]
          simp [List.intersperse]
        · -- at least one more batch: a cooldown sleep is interleaved
          have hrne : ¬ (q.drop B).isEmpty = true := by simp [hrnil]
          rw [if_neg hrne, hres]
          have hcne : chunksOf B (q.drop B) ≠ [] := by
            rw [chunksOf_cons B (q.drop B) hrnil hB.ne']
            exact List.cons_ne_nil _ _
          obtain ⟨ch, chs, hch⟩ := List.exists_cons_of_ne_nil hcne
          rw [hch]
          rfl

/-- `drainLoop` specialisation of `drainAux_none`. -/
lemma drainLoop_none (B : Nat) (c : ℚ) (e : ε) (hB : 0 < B) (k : Nat)
    (q : List (BatchRequest ε α)) :
    drainLoop B c none e k q =
      ⟨List.intersperse (DrainEvent.sleep c) ((chunksOf B q).map DrainEvent.batch),
       q.map (fun r => (r.rid, r.op)), []⟩ :=
  drainAux_none B c e hB q.length k q (le_refl _)

/-- Dropping the sleeps of an interleaved trace recovers the batches. -/
lemma filterMap_intersperse_batch (c : ℚ) (bs : List (List (BatchRequest ε α))) :
    (List.intersperse (DrainEvent.sleep c) (bs.map DrainEvent.batch)).filterMap
      (fun ev => match ev with
        | DrainEvent.batch b => some b
        | DrainEvent.sleep _ => none) = bs := by
  induction bs with
  | nil => rfl
  | cons b bs ih =>
      cases bs with
      | nil => rfl
      | cons b2 bs2 =>
          simp only [List.map_cons, List.intersperse, List.filterMap_cons]
          simp only [List.map_cons] at ih
          rw [ih]

/-- `List.lookup` of a request id in the own-outcome resolution list. -/
lemma lookup_map_own (q : List (BatchRequest ε α))
    (hnd : (q.map BatchRequest.rid).Nodup) (r : BatchRequest ε α) (hr : r ∈ q) :
    List.lookup r.rid (q.map (fun r => (r.rid, r.op))) = some r.op := by
  induction q with
  | nil => cases hr
  | cons a q ih =>
      simp only [List.map_cons, List.nodup_cons] at hnd
      rcases List.mem_cons.mp hr with he | hm
      · subst he
        simp [List.lookup]
      · have hne : (r.rid == a.rid) = false := by
          apply beq_false_of_ne
          intro hc
          exact hnd.1 (hc ▸ List.mem_map_of_mem BatchRequest.rid hm)
        simp only [List.map_cons, List.lookup, hne]
        exact ih hnd.2 hm

/-- Fixture queue for the witnesses: five distinct requests. -/
def demoQ : List (BatchRequest String Int) :=
  [⟨0, Except.ok 10⟩, ⟨1, Except.ok 11⟩, ⟨2, Except.ok 12⟩,
   ⟨3, Except.ok 13⟩, ⟨4, Except.ok 14⟩]

/-- Fixture queue with a failing operation in the middle. -/
def demoQerr : List (BatchRequest String Int) :=
  [⟨0, Except.ok 10⟩, ⟨1, Except.error "boom"⟩, ⟨2, Except.ok 12⟩]

/-- C1: an error-free drain of `N` queued requests with `batch_size = B`
executes the queue front-to-back in FIFO order, in batches of sizes
`B, …, B` followed by `N mod B` when `B` does not divide `N`; each batch
is the oldest `min(B, len(queue))` requests at that iteration. -/
theorem drain_fifo (B : Nat) (c : ℚ) (e : ε) (q : List (BatchRequest ε α))
    (hB : 0 < B) :
    (drainBatches (drainLoop B c none e 0 q)).flatten = q ∧
    (drainBatches (drainLoop B c none e 0 q)).map List.length =
      List.replicate (q.length / B) B ++
        (if q.length % B = 0 then [] else [q.length % B]) := by
  have h1 : drainBatches (drainLoop B c none e 0 q) = chunksOf B q := by
    rw [drainLoop_none B c e hB]
    exact filterMap_intersperse_batch c (chunksOf B q)
  rw [h1]
  exact ⟨chunksOf_flatten B hB q.length q (le_refl _),
    chunksOf_lengths B hB q.length q (le_refl _)⟩

/-- Witness for C1: five requests with `batch_size = 2` drain as batches
of sizes 2, 2, 1 in submission order. -/
theorem drain_fifo_witness :
    0 < 2 ∧
    ((drainBatches (drainLoop 2 (1 : ℚ) none "boom" 0 demoQ)).flatten = demoQ ∧
      (drainBatches (drainLoop 2 (1 : ℚ) none "boom" 0 demoQ)).map List.length =
        List.replicate (demoQ.length / 2) 2 ++
          (if demoQ.length % 2 = 0 then [] else [demoQ.length % 2])) :=
  ⟨by decide, drain_fifo 2 1 "boom" demoQ (by decide)⟩

/-- C2: in an error-free drain every request's future is resolved with
exactly its own operation's outcome, regardless of which operations
fail: a failing request never aborts its batch and never affects a
sibling request's resolution. -/
theorem drain_isolation (B : Nat) (c : ℚ) (e : ε) (q : List (BatchRequest ε α))
    (hB : 0 < B) :
    (drainLoop B c none e 0 q).resolutions = q.map (fun r => (r.rid, r.op)) ∧
    ∀ r ∈ q, (r.rid, r.op) ∈ (drainLoop B c none e 0 q).resolutions := by
  have h1 : (drainLoop B c none e 0 q).resolutions =
      q.map (fun r => (r.rid, r.op)) := by
    rw [drainLoop_none B c e hB]
  exact ⟨h1, fun r hr => h1 ▸ List.mem_map_of_mem _ hr⟩

/-- Witness for C2: a batch containing a failing operation (rid 1)
between two succeeding ones still resolves every future with its own
outcome. -/
theorem drain_isolation_witness :
    (drainLoop 2 (1 : ℚ) none "mech" 0 demoQerr).resolutions =
      demoQerr.map (fun r => (r.rid, r.op)) ∧
    ∀ r ∈ demoQerr, (r.rid, r.op) ∈ (drainLoop 2 (1 : ℚ) none "mech" 0 demoQerr).resolutions :=
  drain_isolation 2 1 "mech" demoQerr (by decide)

/-- C4: each submitter receives exactly its own operation's outcome —
the value on success, the operation's own failure on failure — and no
other submitter receives it. -/
theorem submit_request_result (B : Nat) (c : ℚ) (e : ε)
    (q : List (BatchRequest ε α)) (hB : 0 < B)
    (hnd : (q.map BatchRequest.rid).Nodup) :
    ∀ r ∈ q, List.lookup r.rid (drainLoop B c none e 0 q).resolutions = some r.op := by
  intro r hr
  rw [drainLoop_none B c e hB]
  exact lookup_map_own q hnd r hr

/-- Witness for C4: with a failing rid-1 operation, rid 1 receives the
failure and rid 2 receives its own value. -/
theorem submit_request_result_witness :
    List.lookup 1 (drainLoop 2 (1 : ℚ) none "mech" 0 demoQerr).resolutions =
      some (Except.error "boom") ∧
    List.lookup 2 (drainLoop 2 (1 : ℚ) none "mech" 0 demoQerr).resolutions =
      some (Except.ok 12) :=
  ⟨submit_request_result 2 1 "mech" demoQerr (by decide) (by decide)
      ⟨1, Except.error "boom"⟩ (by simp [demoQerr]),
   submit_request_result 2 1 "mech" demoQerr (by decide) (by decide)
      ⟨2, Except.ok 12⟩ (by simp [demoQerr])⟩

/-- Fixture scheduler state: `batch_size = 2`, `cooldown = 1`, five
queued requests, not currently processing. -/
def demoSched : SchedState String Int := ⟨2, 1, demoQ, false⟩

/-- C5: after each batch the drain loop sleeps for exactly `cooldown`
iff the queue is still non-empty (so sleeps are interleaved strictly
between batches); when the queue empties the loop exits with the
`processing` flag cleared and the queue drained, ready for a fresh
drain. -/
theorem drain_cooldown (e : ε) (s : SchedState ε α) (hp : s.processing = false)
    (hB : 0 < s.batch_size) :
    (processBatch none e s).2.events =
      List.intersperse (DrainEvent.sleep s.cooldown)
        ((chunksOf s.batch_size.toNat s.request_queue).map DrainEvent.batch) ∧
    (processBatch none e s).1.processing = false ∧
    (processBatch none e s).1.request_queue = [] := by
  have hBn : 0 < s.batch_size.toNat := by omega
  have hpn : ¬ s.processing = true := by rw [hp]; exact Bool.false_ne_true
  unfold processBatch
  rw [if_neg hpn]
  simp only [drainLoop_none s.batch_size.toNat s.cooldown e hBn]
  exact ⟨trivial, trivial, trivial⟩

/-- Witness for C5: the five-request fixture produces batch, sleep,
batch, sleep, batch and ends drained with the flag cleared. -/
theorem drain_cooldown_witness :
    (demoSched.processing = false ∧ 0 < demoSched.batch_size) ∧
    ((processBatch none "mech" demoSched).2.events =
        List.intersperse (DrainEvent.sleep demoSched.cooldown)
          ((chunksOf demoSched.batch_size.toNat demoSched.request_queue).map
            DrainEvent.batch) ∧
      (processBatch none "mech" demoSched).1.processing = false ∧
      (processBatch none "mech" demoSched).1.request_queue = []) :=
  ⟨⟨rfl, by decide⟩, drain_cooldown "mech" demoSched rfl (by decide)⟩

/-- C7 (code evaluation): `BatchRequestor.__init__` performs no
validation — constructing with `batch_size = 0` and `cooldown = -1`
succeeds, and a drain pass over a nonempty queue then forms an empty
batch, breaks immediately, resolves no future and leaves the queue
untouched (submitters would wait forever). -/
theorem init_no_validation :
    (BatchRequestor.init 0 (-1) : SchedState String Int) =
      { batch_size := 0, cooldown := -1, request_queue := [], processing := false } ∧
    ∀ r : BatchRequest String Int,
      (processBatch none "mech"
        ({ batch_size := 0, cooldown := -1, request_queue := [r],
           processing := false } : SchedState String Int)).2.resolutions = [] ∧
      (processBatch none "mech"
        ({ batch_size := 0, cooldown := -1, request_queue := [r],
           processing := false } : SchedState String Int)).1.request_queue = [r] :=
  ⟨rfl, fun _ => ⟨rfl, rfl⟩⟩

/-- Resolutions of a drain in which the injected bookkeeping error
fires at absolute iteration `k0` (the loop starting at iteration `k`):
the chunks before `k0` resolve normally, the first `j` requests of
chunk `k0` resolve normally, and the rest of chunk `k0` is resolved
with the injected error. -/
lemma drainAux_err (B : Nat) (c : ℚ) (e : ε) (k0 j : Nat) (hB : 0 < B) :
    ∀ (fuel k : Nat) (q : List (BatchRequest ε α)), q.length ≤ fuel → k ≤ k0 →
      k0 - k < (chunksOf B q).length →
      (drainAux B c (some (k0, j)) e fuel k q).resolutions =
        (((chunksOf B q).take (k0 - k)).flatten).map (fun r => (r.rid, r.op)) ++
        ((((chunksOf B q).getD (k0 - k) []).take j).map (fun r => (r.rid, r.op)) ++
          (((chunksOf B q).getD (k0 - k) []).drop j).map
            (fun r => (r.rid, Except.error e))) := by
  intro fuel
  induction fuel with
  | zero =>
      intro k q hq _ hk
      have hqnil : q = [] := List.eq_nil_of_length_eq_zero (Nat.le_zero.mp hq)
      subst hqnil
      simp [chunksOf_nil] at hk
  | succ fuel ih =>
      intro k q hq hkk hk
      by_cases hqnil : q = []
      · subst hqnil; simp [chunksOf_nil] at hk
      · have hqlen : 0 < q.length := List.length_pos.mpr hqnil
        have hde : ¬ q.isEmpty = true := by simp [hqnil]
        have hbatch : q.take (min B q.length) = q.take B := take_min_self B q
        have hbne : ¬ (q.take (min B q.length)).isEmpty = true := by
          rw [hbatch]
          simp only [List.isEmpty_eq_true, List.take_eq_nil_iff]
          push_neg
          exact ⟨hB.ne', hqnil⟩
        have hblen : (q.take (min B q.length)).length = min B q.length := by
          rw [List.length_take]; omega
        have hrlen : (q.drop B).length ≤ fuel := by
          rw [List.length_drop]; omega
        have hchq := chunksOf_cons B q hqnil hB.ne'
        show (if q.isEmpty = true then (⟨[], [], []⟩ : DrainOut ε α)
          else
            let batch := q.take (min B q.length)
            if batch.isEmpty = true then ⟨[], [], q⟩
            else
              let rest := q.drop batch.length
              match errFires (some (k0, j)) k with
              | some j =>
                  ⟨[DrainEvent.batch batch],
                   (batch.take j).map (fun r => (r.rid, r.op)) ++
                     (batch.drop j).map (fun r => (r.rid, Except.error e)),
                   rest⟩
              | none =>
                  let out := drainAux B c (some (k0, j)) e fuel (k + 1) rest
                  ⟨DrainEvent.batch batch ::
                     (if rest.isEmpty then out.events
                      else DrainEvent.sleep c :: out.events),
                   batch.map (fun r => (r.rid, r.op)) ++ out.resolutions,
                   out.leftover⟩).resolutions = _
        rw [if_neg hde]
        rw [if_neg hbne]
        rw [hblen, drop_min_self, hbatch]
        by_cases hfire : k0 = k
        · -- the error fires in this iteration
          have hfe : errFires (some (k0, j)) k = some j := by
            simp [errFires, hfire]
          have hz : k0 - k = 0 := by omega
          simp only [hfe, hz, hchq, List.take_zero,
            List.flatten_nil, List.map_nil, List.nil_append, List.getD_cons_zero]
        · -- this iteration completes normally; the error fires later
          have hklt : k < k0 := lt_of_le_of_ne hkk (fun h => hfire h.symm)
          have hfe : errFires (some (k0, j)) k = none := by
            simp [errFires, hfire]
          simp only [hfe]
          obtain ⟨m, hm⟩ : ∃ m, k0 - k = m + 1 := ⟨k0 - k - 1, by omega⟩
          have hk1 : k + 1 ≤ k0 := hklt
          have hm1 : k0 - (k + 1) = m := by omega
          have hklen : k0 - (k + 1) < (chunksOf B (q.drop B)).length := by
            rw [hchq] at hk
            simp only [List.length_cons] at hk
            omega
          rw [ih (k + 1) (q.drop B) hrlen hk1 hklen]
          rw [hchq, hm, hm1]
          simp only [List.take_succ_cons, List.flatten_cons, List.map_append,
            List.getD_cons_succ, List.append_assoc]

/-- Counterexample to C6 as stated: a `process_batch` call that takes
the early-return path (another drain owns the flag) returns with
`processing` still `true` — the flag is not cleared on that exit path. -/
theorem process_batch_early_return_keeps_flag :
    (processBatch none "mech"
      ({ batch_size := 2, cooldown := 1, request_queue := demoQ,
         processing := true } : SchedState String Int)).1.processing = true := rfl

/-- C6 (amended): if a bookkeeping error fires in iteration `k0` after
`j` requests of that batch, every request already removed from the
queue for the in-flight batch but not yet resolved gets that error set
on its future before `process_batch` returns, and the `processing` flag
is cleared on both loop exit paths (normal completion and bookkeeping
error); the early-return path leaves the flag to the drain that owns
it. -/
theorem process_batch_error_containment (e : ε) (s : SchedState ε α) (k0 j : Nat)
    (hp : s.processing = false) (hB : 0 < s.batch_size)
    (hk : k0 < (chunksOf s.batch_size.toNat s.request_queue).length) :
    (∀ r ∈ ((chunksOf s.batch_size.toNat s.request_queue).getD k0 []).drop j,
      (r.rid, Except.error e) ∈ (processBatch (some (k0, j)) e s).2.resolutions) ∧
    (processBatch (some (k0, j)) e s).1.processing = false := by
  have hBn : 0 < s.batch_size.toNat := by omega
  have hpn : ¬ s.processing = true := by rw [hp]; exact Bool.false_ne_true
  unfold processBatch
  rw [if_neg hpn]
  constructor
  · intro r hr
    show (r.rid, Except.error e) ∈
      (drainLoop s.batch_size.toNat s.cooldown (some (k0, j)) e 0 s.request_queue).resolutions
    rw [drainLoop, drainAux_err s.batch_size.toNat s.cooldown e k0 j hBn
      s.request_queue.length 0 s.request_queue (le_refl _) (Nat.zero_le _)
      (by simpa using hk)]
    simp only [Nat.sub_zero]
    apply List.mem_append_right
    apply List.mem_append_right
    exact List.mem_map_of_mem _ hr
  · rfl

/-- Witness for C6: error injected into the second batch (iteration 1)
after 0 requests; both requests of that batch receive the mechanism
error and the flag ends cleared. -/
theorem process_batch_error_containment_witness :
    (demoSched.processing = false ∧ 0 < demoSched.batch_size ∧
      1 < (chunksOf demoSched.batch_size.toNat demoSched.request_queue).length) ∧
    ((∀ r ∈ ((chunksOf demoSched.batch_size.toNat demoSched.request_queue).getD 1 []).drop 0,
        (r.rid, Except.error "mech") ∈
          (processBatch (some (1, 0)) "mech" demoSched).2.resolutions) ∧
      (processBatch (some (1, 0)) "mech" demoSched).1.processing = false) :=
  ⟨⟨rfl, by decide, by decide⟩,
   process_batch_error_containment "mech" demoSched 1 0 rfl (by decide) (by decide)⟩

/-- Keys of own-outcome resolutions are the request ids. -/
lemma map_fst_own (l : List (BatchRequest ε α)) :
    (l.map (fun r => (r.rid, r.op))).map Prod.fst = l.map BatchRequest.rid := by
  rw [List.map_map]
  exact List.map_congr_left (fun a _ => rfl)

/-- Keys of error resolutions are the request ids. -/
lemma map_fst_err (e : ε) (l : List (BatchRequest ε α)) :
    (l.map (fun r => (r.rid, (Except.error e : Except ε α)))).map Prod.fst =
      l.map BatchRequest.rid := by
  rw [List.map_map]
  exact List.map_congr_left (fun a _ => rfl)

/-- The resolutions of any drain (error-injected or not) cover a prefix
of the queue: resolution keys are the ids of the first `m` queued
requests, for some `m`. -/
lemma drainAux_res_take (B : Nat) (c : ℚ) (errAt : Option (Nat × Nat)) (e : ε) :
    ∀ (fuel k : Nat) (q : List (BatchRequest ε α)), q.length ≤ fuel →
      ∃ m, (drainAux B c errAt e fuel k q).resolutions.map Prod.fst =
        (q.take m).map BatchRequest.rid := by
  intro fuel
  induction fuel with
  | zero =>
      intro k q _
      exact ⟨0, rfl⟩
  | succ fuel ih =>
      intro k q hq
      by_cases hqnil : q = []
      · subst hqnil; exact ⟨0, rfl⟩
      · have hqlen : 0 < q.length := List.length_pos.mpr hqnil
        have hde : ¬ q.isEmpty = true := by simp [hqnil]
        have hblen : (q.take (min B q.length)).length = min B q.length := by
          rw [List.length_take]; omega
        show ∃ m, (if q.isEmpty = true then (⟨[], [], []⟩ : DrainOut ε α)
          else
            let batch := q.take (min B q.length)
            if batch.isEmpty = true then ⟨[], [], q⟩
            else
              let rest := q.drop batch.length
              match errFires errAt k with
              | some j =>
                  ⟨[DrainEvent.batch batch],
                   (batch.take j).map (fun r => (r.rid, r.op)) ++
                     (batch.drop j).map (fun r => (r.rid, Except.error e)),
                   rest⟩
              | none =>
                  let out := drainAux B c errAt e fuel (k + 1) rest
                  ⟨DrainEvent.batch batch ::
                     (if rest.isEmpty then out.events
                      else DrainEvent.sleep c :: out.events),
                   batch.map (fun r => (r.rid, r.op)) ++ out.resolutions,
                   out.leftover⟩).resolutions.map Prod.fst =
            (q.take m).map BatchRequest.rid
        rw [if_neg hde]
        by_cases hbe : (q.take (min B q.length)).isEmpty = true
        · rw [if_pos hbe]
          exact ⟨0, rfl⟩
        · rw [if_neg hbe]
          rw [hblen, drop_min_self]
          have hBpos : 0 < B := by
            rcases Nat.eq_zero_or_pos B with h0 | h
            · exfalso
              apply hbe
              subst h0
              show (List.take (0 ⊓ q.length) q).isEmpty = true
              simp
            · exact h
          cases hfe : errFires errAt k with
          | some j =>
              refine ⟨min B q.length, ?_⟩
              rw [List.map_append, map_fst_own, map_fst_err,
                ← List.map_append, List.take_append_drop]
          | none =>
              have hrlen : (q.drop B).length ≤ fuel := by
                rw [List.length_drop]; omega
              obtain ⟨m, hm⟩ := ih (k + 1) (q.drop B) hrlen
              refine ⟨B + m, ?_⟩
              rw [List.map_append, map_fst_own, hm, take_min_self,
                List.take_add, List.map_append]

/-- C8 (amended): no future is ever resolved twice (in any run,
error-injected or not), and an error-free drain resolves every queued
request exactly once; a request still queued when a drain dies of a
bookkeeping error stays unresolved until a later submission restarts
draining (there is no teardown handling). -/
theorem request_resolved_once (B : Nat) (c : ℚ) (errAt : Option (Nat × Nat))
    (e : ε) (q : List (BatchRequest ε α)) (hB : 0 < B)
    (hnd : (q.map BatchRequest.rid).Nodup) :
    ((drainLoop B c errAt e 0 q).resolutions.map Prod.fst).Nodup ∧
    (drainLoop B c none e 0 q).resolutions.map Prod.fst =
      q.map BatchRequest.rid := by
  constructor
  · obtain ⟨m, hm⟩ := drainAux_res_take B c errAt e q.length 0 q (le_refl _)
    rw [drainLoop, hm]
    exact List.Nodup.sublist (List.Sublist.map _ (List.take_sublist m q)) hnd
  · rw [drainLoop_none B c e hB]
    simp [List.map_map, Function.comp]

/-- Witness for C8 (amended) on the five-request fixture, with an error
injected into iteration 1. -/
theorem request_resolved_once_witness :
    (0 < 2 ∧ (demoQ.map BatchRequest.rid).Nodup) ∧
    (((drainLoop 2 (1 : ℚ) (some (1, 0)) "mech" 0 demoQ).resolutions.map
        Prod.fst).Nodup ∧
      (drainLoop 2 (1 : ℚ) none "mech" 0 demoQ).resolutions.map Prod.fst =
        demoQ.map BatchRequest.rid) :=
  ⟨⟨by decide, by decide⟩,
   request_resolved_once 2 1 (some (1, 0)) "mech" demoQ (by decide) (by decide)⟩

/-- Counterexample to C8 as stated: with `batch_size = 1` and two queued
requests, a bookkeeping error in the first iteration resolves request 0
with the error, clears the flag and exits — request 1 entered the queue
but is left unresolved in the queue, and no teardown mechanism ever
resolves it. -/
theorem request_silently_dropped :
    (processBatch (some (0, 0)) "mech"
      ({ batch_size := 1, cooldown := 1,
         request_queue := [⟨0, Except.ok 10⟩, ⟨1, Except.ok 11⟩],
         processing := false } : SchedState String Int)).2.resolutions =
      [(0, Except.error "mech")] ∧
    (processBatch (some (0, 0)) "mech"
      ({ batch_size := 1, cooldown := 1,
         request_queue := [⟨0, Except.ok 10⟩, ⟨1, Except.ok 11⟩],
         processing := false } : SchedState String Int)).1.request_queue =
      [⟨1, Except.ok 11⟩] ∧
    (processBatch (some (0, 0)) "mech"
      ({ batch_size := 1, cooldown := 1,
         request_queue := [⟨0, Except.ok 10⟩, ⟨1, Except.ok 11⟩],
         processing := false } : SchedState String Int)).1.processing = false :=
  ⟨rfl, rfl, rfl⟩

namespace BatchMutex

/-! Interleaving model of the guard of `process_batch` under asyncio's
cooperative scheduling: any number of tasks (one per submission) each
run the statements of `process_batch`; statements between awaits are
atomic, and the only await points of the guard are the lock acquisition
and the drain loop body itself.  Program counters:

* `start`     — about to run `if self.processing: return`
* `waitLock`  — about to acquire `self.lock` (`async with self.lock`)
* `check2`    — holding the lock, about to double-check `self.processing`
* `setFlag`   — holding the lock, about to run `self.processing = True`
* `unlockRet` — releasing the lock on the double-check early return
* `unlockGo`  — releasing the lock before entering the `try` block
* `draining`  — inside the `try`/`while` drain loop
* `finalStep` — about to run `finally: self.processing = False`
* `done`      — returned -/

inductive PC where
  | start
  | waitLock
  | check2
  | setFlag
  | unlockRet
  | unlockGo
  | draining
  | finalStep
  | done
deriving DecidableEq

/-- Shared scheduler state plus every task's program counter: the
`processing` flag, the `asyncio.Lock` (`some t` iff held by task `t`). -/
structure MState where
  processing : Bool
  lock : Option Nat
  pc : Nat → PC

/-- Point update of a task's program counter. -/
def upd (f : Nat → PC) (t : Nat) (p : PC) : Nat → PC :=
  fun u => if u = t then p else f u

/-- One interleaving step: some task executes its next atomic
statement of `process_batch`. -/
inductive MStep : MState → MState → Prop where
  | startBusy (s : MState) (t : Nat) (h : s.pc t = PC.start)
      (hp : s.processing = true) :
      MStep s ⟨s.processing, s.lock, upd s.pc t PC.done⟩
  | startFree (s : MState) (t : Nat) (h : s.pc t = PC.start)
      (hp : s.processing = false) :
      MStep s ⟨s.processing, s.lock, upd s.pc t PC.waitLock⟩
  | acquire (s : MState) (t : Nat) (h : s.pc t = PC.waitLock)
      (hl : s.lock = none) :
      MStep s ⟨s.processing, some t, upd s.pc t PC.check2⟩
  | check2Busy (s : MState) (t : Nat) (h : s.pc t = PC.check2)
      (hp : s.processing = true) :
      MStep s ⟨s.processing, s.lock, upd s.pc t PC.unlockRet⟩
  | check2Free (s : MState) (t : Nat) (h : s.pc t = PC.check2)
      (hp : s.processing = false) :
      MStep s ⟨s.processing, s.lock, upd s.pc t PC.setFlag⟩
  | doSet (s : MState) (t : Nat) (h : s.pc t = PC.setFlag) :
      MStep s ⟨true, s.lock, upd s.pc t PC.unlockGo⟩
  | relRet (s : MState) (t : Nat) (h : s.pc t = PC.unlockRet) :
      MStep s ⟨s.processing, none, upd s.pc t PC.done⟩
  | relGo (s : MState) (t : Nat) (h : s.pc t = PC.unlockGo) :
      MStep s ⟨s.processing, none, upd s.pc t PC.draining⟩
  | finish (s : MState) (t : Nat) (h : s.pc t = PC.draining) :
      MStep s ⟨s.processing, s.lock, upd s.pc t PC.finalStep⟩
  | clear (s : MState) (t : Nat) (h : s.pc t = PC.finalStep) :
      MStep s ⟨false, s.lock, upd s.pc t PC.done⟩

/-- Initial state: flag clear, lock free, every task at `start`. -/
def initState : MState := ⟨false, none, fun _ => PC.start⟩

/-- States reachable by any interleaving of task steps. -/
inductive Reachable : MState → Prop where
  | init : Reachable initState
  | step {s s' : MState} : Reachable s → MStep s s' → Reachable s'

/-- Program counters at which the task holds the lock. -/
def inLock (p : PC) : Prop :=
  p = PC.check2 ∨ p = PC.setFlag ∨ p = PC.unlockRet ∨ p = PC.unlockGo

/-- Program counters at which the task owns the `processing` flag (it
has set the flag and not yet cleared it). -/
def inOwn (p : PC) : Prop :=
  p = PC.unlockGo ∨ p = PC.draining ∨ p = PC.finalStep

/-- Program counters inside the guarded critical region (committed to
becoming, or being, the unique drainer). -/
def inCrit (p : PC) : Prop := p = PC.setFlag ∨ inOwn p

lemma upd_eq (f : Nat → PC) (t : Nat) (p : PC) : upd f t p t = p := by
  simp [upd]

lemma upd_ne (f : Nat → PC) (t : Nat) (p : PC) (u : Nat) (h : u ≠ t) :
    upd f t p u = f u := by
  simp [upd, h]

/-- The inductive invariant: lock states really hold the lock, the flag
is set exactly while some task owns it, and the critical region holds
at most one task. -/
structure Inv (s : MState) : Prop where
  lockOwn : ∀ t, inLock (s.pc t) → s.lock = some t
  flagIff : s.processing = true ↔ ∃ t, inOwn (s.pc t)
  critUniq : ∀ t u, inCrit (s.pc t) → inCrit (s.pc u) → t = u

lemma exists_inOwn_upd_iff (f : Nat → PC) (t : Nat) (pNew : PC)
    (hOld : ¬ inOwn (f t)) (hNew : ¬ inOwn pNew) :
    (∃ u, inOwn (upd f t pNew u)) ↔ (∃ u, inOwn (f u)) := by
  constructor
  · rintro ⟨u, hu⟩
    by_cases he : u = t
    · subst he
      rw [upd_eq] at hu
      exact absurd hu hNew
    · exact ⟨u, by rwa [upd_ne f t pNew u he] at hu⟩
  · rintro ⟨u, hu⟩
    have he : u ≠ t := fun hc => hOld (hc ▸ hu)
    exact ⟨u, by rwa [upd_ne f t pNew u he]⟩

lemma exists_inOwn_upd_iff2 (f : Nat → PC) (t : Nat) (pNew : PC)
    (hOld : inOwn (f t)) (hNew : inOwn pNew) :
    (∃ u, inOwn (upd f t pNew u)) ↔ (∃ u, inOwn (f u)) := by
  constructor
  · rintro ⟨u, hu⟩
    by_cases he : u = t
    · exact ⟨t, hOld⟩
    · exact ⟨u, by rwa [upd_ne f t pNew u he] at hu⟩
  · intro _
    exact ⟨t, by rw [upd_eq]; exact hNew⟩

lemma critUniq_upd_not {s : MState} (hinv : Inv s) (t : Nat) (pNew : PC)
    (hNew : ¬ inCrit pNew) :
    ∀ u v, inCrit (upd s.pc t pNew u) → inCrit (upd s.pc t pNew v) → u = v := by
  intro u v hu hv
  by_cases heu : u = t
  · subst heu
    rw [upd_eq] at hu
    exact absurd hu hNew
  · by_cases hev : v = t
    · subst hev
      rw [upd_eq] at hv
      exact absurd hv hNew
    · rw [upd_ne s.pc t pNew u heu] at hu
      rw [upd_ne s.pc t pNew v hev] at hv
      exact hinv.critUniq u v hu hv

lemma critUniq_upd_both {s : MState} (hinv : Inv s) (t : Nat) (pNew : PC)
    (hOld : inCrit (s.pc t)) :
    ∀ u v, inCrit (upd s.pc t pNew u) → inCrit (upd s.pc t pNew v) → u = v := by
  intro u v hu hv
  by_cases heu : u = t
  · by_cases hev : v = t
    · rw [heu, hev]
    · rw [upd_ne s.pc t pNew v hev] at hv
      rw [heu]
      exact (hinv.critUniq v t hv hOld).symm
  · rw [upd_ne s.pc t pNew u heu] at hu
    by_cases hev : v = t
    · rw [hev]
      exact hinv.critUniq u t hu hOld
    · rw [upd_ne s.pc t pNew v hev] at hv
      exact hinv.critUniq u v hu hv

/-- The invariant is preserved by every interleaving step. -/
lemma inv_step {s s' : MState} (hinv : Inv s) (hstep : MStep s s') : Inv s' := by
  cases hstep with
  | startBusy t h hp =>
      refine ⟨?_, ?_, ?_⟩ <;> dsimp only
      · intro u hu
        by_cases he : u = t
        · subst he; rw [upd_eq] at hu; exact absurd hu (by simp [inLock])
        · rw [upd_ne _ _ _ _ he] at hu; exact hinv.lockOwn u hu
      · show s.processing = true ↔ _
        rw [exists_inOwn_upd_iff s.pc t PC.done (by rw [h]; simp [inOwn])
          (by simp [inOwn])]
        exact hinv.flagIff
      · exact critUniq_upd_not hinv t PC.done (by simp [inCrit, inOwn])
  | startFree t h hp =>
      refine ⟨?_, ?_, ?_⟩ <;> dsimp only
      · intro u hu
        by_cases he : u = t
        · subst he; rw [upd_eq] at hu; exact absurd hu (by simp [inLock])
        · rw [upd_ne _ _ _ _ he] at hu; exact hinv.lockOwn u hu
      · show s.processing = true ↔ _
        rw [exists_inOwn_upd_iff s.pc t PC.waitLock (by rw [h]; simp [inOwn])
          (by simp [inOwn])]
        exact hinv.flagIff
      · exact critUniq_upd_not hinv t PC.waitLock (by simp [inCrit, inOwn])
  | acquire t h hl =>
      refine ⟨?_, ?_, ?_⟩ <;> dsimp only
      · intro u hu
        by_cases he : u = t
        · subst he; rfl
        · rw [upd_ne _ _ _ _ he] at hu
          have h2 := hinv.lockOwn u hu
          rw [hl] at h2
          exact absurd h2 (by simp)
      · show s.processing = true ↔ _
        rw [exists_inOwn_upd_iff s.pc t PC.check2 (by rw [h]; simp [inOwn])
          (by simp [inOwn])]
        exact hinv.flagIff
      · exact critUniq_upd_not hinv t PC.check2 (by simp [inCrit, inOwn])
  | check2Busy t h hp =>
      refine ⟨?_, ?_, ?_⟩ <;> dsimp only
      · intro u hu
        by_cases he : u = t
        · subst he; exact hinv.lockOwn _ (by rw [h]; simp [inLock])
        · rw [upd_ne _ _ _ _ he] at hu; exact hinv.lockOwn u hu
      · show s.processing = true ↔ _
        rw [exists_inOwn_upd_iff s.pc t PC.unlockRet (by rw [h]; simp [inOwn])
          (by simp [inOwn])]
        exact hinv.flagIff
      · exact critUniq_upd_not hinv t PC.unlockRet (by simp [inCrit, inOwn])
  | check2Free t h hp =>
      refine ⟨?_, ?_, ?_⟩ <;> dsimp only
      · intro u hu
        by_cases he : u = t
        · subst he; exact hinv.lockOwn _ (by rw [h]; simp [inLock])
        · rw [upd_ne _ _ _ _ he] at hu; exact hinv.lockOwn u hu
      · show s.processing = true ↔ _
        rw [exists_inOwn_upd_iff s.pc t PC.setFlag (by rw [h]; simp [inOwn])
          (by simp [inOwn])]
        exact hinv.flagIff
      · intro u v hu hv
        have key : ∀ w, inCrit (upd s.pc t PC.setFlag w) → w = t := by
          intro w hw
          by_cases he : w = t
          · exact he
          · rw [upd_ne _ _ _ _ he] at hw
            rcases hw with hws | hwo
            · have h1 := hinv.lockOwn w (Or.inr (Or.inl hws))
              have h2 := hinv.lockOwn t (by rw [h]; simp [inLock])
              rw [h1] at h2
              exact Option.some.inj h2
            · have hc := hinv.flagIff.mpr ⟨w, hwo⟩
              rw [hp] at hc
              exact absurd hc (by simp)
        rw [key u hu, key v hv]
  | doSet t h =>
      refine ⟨?_, ?_, ?_⟩ <;> dsimp only
      · intro u hu
        by_cases he : u = t
        · subst he; exact hinv.lockOwn _ (by rw [h]; simp [inLock])
        · rw [upd_ne _ _ _ _ he] at hu; exact hinv.lockOwn u hu
      · constructor
        · intro _
          exact ⟨t, by rw [upd_eq]; simp [inOwn]⟩
        · intro _; rfl
      · exact critUniq_upd_both hinv t PC.unlockGo (by rw [h]; simp [inCrit])
  | relRet t h =>
      refine ⟨?_, ?_, ?_⟩ <;> dsimp only
      · intro u hu
        by_cases he : u = t
        · subst he; rw [upd_eq] at hu; exact absurd hu (by simp [inLock])
        · rw [upd_ne _ _ _ _ he] at hu
          have h1 := hinv.lockOwn u hu
          have h2 := hinv.lockOwn t (by rw [h]; simp [inLock])
          rw [h1] at h2
          exact absurd (Option.some.inj h2) he
      · show s.processing = true ↔ _
        rw [exists_inOwn_upd_iff s.pc t PC.done (by rw [h]; simp [inOwn])
          (by simp [inOwn])]
        exact hinv.flagIff
      · exact critUniq_upd_not hinv t PC.done (by simp [inCrit, inOwn])
  | relGo t h =>
      refine ⟨?_, ?_, ?_⟩ <;> dsimp only
      · intro u hu
        by_cases he : u = t
        · subst he; rw [upd_eq] at hu; exact absurd hu (by simp [inLock])
        · rw [upd_ne _ _ _ _ he] at hu
          have h1 := hinv.lockOwn u hu
          have h2 := hinv.lockOwn t (by rw [h]; simp [inLock])
          rw [h1] at h2
          exact absurd (Option.some.inj h2) he
      · show s.processing = true ↔ _
        rw [exists_inOwn_upd_iff2 s.pc t PC.draining (by rw [h]; simp [inOwn])
          (by simp [inOwn])]
        exact hinv.flagIff
      · exact critUniq_upd_both hinv t PC.draining
          (by rw [h]; simp [inCrit, inOwn])
  | finish t h =>
      refine ⟨?_, ?_, ?_⟩ <;> dsimp only
      · intro u hu
        by_cases he : u = t
        · subst he; rw [upd_eq] at hu; exact absurd hu (by simp [inLock])
        · rw [upd_ne _ _ _ _ he] at hu; exact hinv.lockOwn u hu
      · show s.processing = true ↔ _
        rw [exists_inOwn_upd_iff2 s.pc t PC.finalStep (by rw [h]; simp [inOwn])
          (by simp [inOwn])]
        exact hinv.flagIff
      · exact critUniq_upd_both hinv t PC.finalStep
          (by rw [h]; simp [inCrit, inOwn])
  | clear t h =>
      refine ⟨?_, ?_, ?_⟩ <;> dsimp only
      · intro u hu
        by_cases he : u = t
        · subst he; rw [upd_eq] at hu; exact absurd hu (by simp [inLock])
        · rw [upd_ne _ _ _ _ he] at hu; exact hinv.lockOwn u hu
      · constructor
        · intro hc; exact absurd hc (by simp)
        · rintro ⟨u, hu⟩
          by_cases he : u = t
          · subst he; rw [upd_eq] at hu; simp [inOwn] at hu
          · rw [upd_ne _ _ _ _ he] at hu
            have hc := hinv.critUniq u t (Or.inr hu)
              (by rw [h]; simp [inCrit, inOwn])
            exact absurd hc he
      · exact critUniq_upd_not hinv t PC.done (by simp [inCrit, inOwn])

/-- Every reachable state satisfies the invariant. -/
lemma reachable_inv {s : MState} (h : Reachable s) : Inv s := by
  induction h with
  | init =>
      refine ⟨?_, ?_, ?_⟩
      · intro t ht
        simp [initState, inLock] at ht
      · constructor
        · intro hc
          exact absurd hc (by simp [initState])
        · rintro ⟨u, hu⟩
          simp [initState, inOwn] at hu
      · intro t u ht _
        simp [initState, inCrit, inOwn] at ht
  | step _ hstep ih => exact inv_step ih hstep

end BatchMutex

/-- C3: under every interleaving of concurrently triggered
`process_batch` calls, the double-checked `processing` flag guarded by
the `asyncio.Lock` admits at most one active drain loop: in any
reachable state, two tasks inside the drain loop are the same task. -/
theorem process_batch_single_drain (s : BatchMutex.MState)
    (hs : BatchMutex.Reachable s) (t u : Nat)
    (ht : s.pc t = BatchMutex.PC.draining)
    (hu : s.pc u = BatchMutex.PC.draining) : t = u :=
  (BatchMutex.reachable_inv hs).critUniq t u
    (Or.inr (Or.inr (Or.inl ht))) (Or.inr (Or.inr (Or.inl hu)))

/-- Concrete run for the C3 witness: task 0 passes the guard, sets the
flag under the lock, releases it and enters the drain loop. -/
def BatchMutex.ms1 : BatchMutex.MState :=
  ⟨false, none, BatchMutex.upd BatchMutex.initState.pc 0 BatchMutex.PC.waitLock⟩

def BatchMutex.ms2 : BatchMutex.MState :=
  ⟨false, some 0, BatchMutex.upd BatchMutex.ms1.pc 0 BatchMutex.PC.check2⟩

def BatchMutex.ms3 : BatchMutex.MState :=
  ⟨false, some 0, BatchMutex.upd BatchMutex.ms2.pc 0 BatchMutex.PC.setFlag⟩

def BatchMutex.ms4 : BatchMutex.MState :=
  ⟨true, some 0, BatchMutex.upd BatchMutex.ms3.pc 0 BatchMutex.PC.unlockGo⟩

def BatchMutex.ms5 : BatchMutex.MState :=
  ⟨true, none, BatchMutex.upd BatchMutex.ms4.pc 0 BatchMutex.PC.draining⟩

lemma BatchMutex.reach_ms5 : BatchMutex.Reachable BatchMutex.ms5 :=
  BatchMutex.Reachable.step
    (BatchMutex.Reachable.step
      (BatchMutex.Reachable.step
        (BatchMutex.Reachable.step
          (BatchMutex.Reachable.step BatchMutex.Reachable.init
            (BatchMutex.MStep.startFree BatchMutex.initState 0 rfl rfl))
          (BatchMutex.MStep.acquire BatchMutex.ms1 0 rfl rfl))
        (BatchMutex.MStep.check2Free BatchMutex.ms2 0 rfl rfl))
      (BatchMutex.MStep.doSet BatchMutex.ms3 0 rfl))
    (BatchMutex.MStep.relGo BatchMutex.ms4 0 rfl)

/-- Witness for C3 at a concrete reachable state in which task 0 is
inside the drain loop. -/
theorem process_batch_single_drain_witness :
    BatchMutex.Reachable BatchMutex.ms5 ∧
    BatchMutex.ms5.pc 0 = BatchMutex.PC.draining ∧ (0 : Nat) = 0 :=
  ⟨BatchMutex.reach_ms5, rfl,
   process_batch_single_drain BatchMutex.ms5 BatchMutex.reach_ms5 0 0 rfl rfl⟩

end StakingIncome
